import Mathlib

/-!
Verification of the audio-analysis core of the Music-Visualizer repository.

The definitions below are shallow embeddings of the C functions in
`src/plug.c`, `src/fft.c` and `src/music.c`:

* `computeFft`   — `compute_fft` in plug.c (recursive radix-2 FFT, twiddle
  `cexpf(-2*I*PI*t)` with `PI` the real constant), on the power-of-two
  sizes it is called with; the stride-doubling recursion on a C array is
  rendered as the even/odd deinterleaving of the sample list.
* `fftArr`       — `fft` in fft.c / music.c (identical bodies), with the C
  array modelled as a function `Nat → ℂ` so that cells the code never
  writes keep their previous (uninitialized) contents, and the
  `assert(size > 0)` modelled as an `Option.none` result.
* `computeFftF`  — `compute_fft` again, as the same array program but with
  explicit fuel, because plug.c has no assertion and recurses forever when
  `n = 0`; `none` means the recursion did not terminate within the fuel.
* ring buffer (`pushFrames` / `snapshot`), `switchTrack`, `getAmplitude`,
  `maxAmp` / `bandMax`, the band-bound computation and the envelope
  smoother (`smoothStep`, `updateBand`) — all from plug.c.

`dft` is the reference discrete Fourier transform, written from the spec,
to compare `computeFft` against.

C `float` arithmetic is modelled by exact real arithmetic, and the float
literal `PI` by the real number `π`.
-/

/-- Even-indexed elements of a list: the sublist `in[0], in[2*stride], …`
that `compute_fft`'s first recursive call sees after doubling the stride. -/
def evens {α : Type} : List α → List α
  | [] => []
  | [a] => [a]
  | a :: _ :: rest => a :: evens rest

/-- Odd-indexed elements of a list: the sublist `in[stride], in[3*stride], …`
seen by the second recursive call of `compute_fft`. -/
def odds {α : Type} : List α → List α
  | [] => []
  | [_] => []
  | _ :: b :: rest => b :: odds rest

theorem evens_length {α : Type} : ∀ x : List α, (evens x).length = (x.length + 1) / 2
  | [] => by simp [evens]
  | [_] => by simp [evens]
  | _ :: _ :: rest => by
      simp only [evens, List.length_cons, evens_length rest]
      omega

theorem odds_length {α : Type} : ∀ x : List α, (odds x).length = x.length / 2
  | [] => by simp [odds]
  | [_] => by simp [odds]
  | _ :: _ :: rest => by
      simp only [odds, List.length_cons, odds_length rest]
      omega

theorem evens_getD {α : Type} (d : α) :
    ∀ (x : List α) (r : ℕ), (evens x).getD r d = x.getD (2 * r) d
  | [], r => by simp [evens]
  | [a], r => by
      cases r with
      | zero => rfl
      | succ r =>
          rw [show evens [a] = [a] from rfl, List.getD_eq_default, List.getD_eq_default]
          · simp; omega
          · simp
  | a :: b :: rest, r => by
      cases r with
      | zero => rfl
      | succ r =>
          have h2 : 2 * (r + 1) = 2 * r + 1 + 1 := by ring
          simp only [evens, h2, List.getD_cons_succ]
          exact evens_getD d rest r

theorem odds_getD {α : Type} (d : α) :
    ∀ (x : List α) (r : ℕ), (odds x).getD r d = x.getD (2 * r + 1) d
  | [], r => by simp [odds]
  | [a], r => by
      rw [show odds [a] = ([] : List α) from rfl, List.getD_eq_default, List.getD_eq_default]
      · simp
      · simp
  | a :: b :: rest, r => by
      cases r with
      | zero => rfl
      | succ r =>
          have h2 : 2 * (r + 1) + 1 = 2 * r + 1 + 1 + 1 := by ring
          simp only [odds, h2, List.getD_cons_succ]
          exact odds_getD d rest r

/-- Twiddle factor of the butterfly in `compute_fft` (plug.c):
`cexpf(-2.0f * I * PI * t)` with `t = (float)k / n`. -/
noncomputable def tw (n k : ℕ) : ℂ :=
  Complex.exp (-2 * Complex.I * (Real.pi : ℂ) * ((k : ℂ) / (n : ℂ)))

/-- DFT kernel `e^(-2*pi*i*(k*j)/n)`, used by the reference transform. -/
noncomputable def ker (n k j : ℕ) : ℂ :=
  Complex.exp (-2 * Complex.I * (Real.pi : ℂ) * (((k : ℂ) * (j : ℂ)) / (n : ℂ)))

/-- Entry `k` of the reference DFT of `x` (spec section 4.2). -/
noncomputable def dftVal (x : List ℝ) (k : ℕ) : ℂ :=
  ∑ j ∈ Finset.range x.length, ((x.getD j 0 : ℝ) : ℂ) * ker x.length k j

/-- Reference discrete Fourier transform, written from the spec:
`X[k] = Σ_j x[j] · e^(-2πi·k·j/N)`. -/
noncomputable def dft (x : List ℝ) : List ℂ :=
  (List.range x.length).map (dftVal x)

/-- `compute_fft` from plug.c on the power-of-two sizes it is invoked with:
base case `n = 1` returns the (real) input verbatim; otherwise the
even- and odd-strided subsequences are transformed recursively and
combined with the butterfly `out[k] = e + tw·o`, `out[k+n/2] = e - tw·o`.
(The empty list is junk: plug.c has no `n = 0` case — see `computeFftF`.) -/
noncomputable def computeFft (x : List ℝ) : List ℂ :=
  if h : x.length < 2 then x.map (fun r => (r : ℂ))
  else
    ((List.range (x.length / 2)).map fun k =>
        (computeFft (evens x)).getD k 0 + tw x.length k * (computeFft (odds x)).getD k 0) ++
      ((List.range (x.length / 2)).map fun k =>
        (computeFft (evens x)).getD k 0 - tw x.length k * (computeFft (odds x)).getD k 0)
termination_by x.length
decreasing_by
  all_goals simp_wf
  all_goals first
    | (rw [evens_length]; omega)
    | (rw [odds_length]; omega)

theorem sum_range_even_odd (f : ℕ → ℂ) :
    ∀ m : ℕ, ∑ j ∈ Finset.range (2 * m), f j =
      (∑ r ∈ Finset.range m, f (2 * r)) + ∑ r ∈ Finset.range m, f (2 * r + 1) := by
  intro m
  induction m with
  | zero => simp
  | succ m ih =>
      have h2 : 2 * (m + 1) = 2 * m + 1 + 1 := by ring
      rw [h2, Finset.sum_range_succ, Finset.sum_range_succ,
        Finset.sum_range_succ (fun r => f (2 * r)),
        Finset.sum_range_succ (fun r => f (2 * r + 1)), ih]
      ring

theorem ker_even (m k r : ℕ) (hm : m ≠ 0) : ker (2 * m) k (2 * r) = ker m k r := by
  have hm' : (m : ℂ) ≠ 0 := Nat.cast_ne_zero.mpr hm
  unfold ker
  congr 1
  push_cast
  field_simp
  ring

theorem ker_even_shift (m k r : ℕ) (hm : m ≠ 0) :
    ker (2 * m) (k + m) (2 * r) = ker m k r := by
  have hm' : (m : ℂ) ≠ 0 := Nat.cast_ne_zero.mpr hm
  unfold ker
  have harg : -2 * Complex.I * (Real.pi : ℂ) * ((((k + m : ℕ) : ℂ) * ((2 * r : ℕ) : ℂ)) / ((2 * m : ℕ) : ℂ)) =
      -2 * Complex.I * (Real.pi : ℂ) * (((k : ℂ) * (r : ℂ)) / (m : ℂ)) +
        ((-(r : ℤ) : ℤ) : ℂ) * (2 * (Real.pi : ℂ) * Complex.I) := by
    push_cast
    field_simp
    ring
  rw [harg, Complex.exp_add, Complex.exp_int_mul_two_pi_mul_I, mul_one]

theorem ker_odd (m k r : ℕ) (hm : m ≠ 0) :
    ker (2 * m) k (2 * r + 1) = tw (2 * m) k * ker m k r := by
  have hm' : (m : ℂ) ≠ 0 := Nat.cast_ne_zero.mpr hm
  unfold ker tw
  rw [← Complex.exp_add]
  congr 1
  push_cast
  field_simp
  ring

theorem ker_odd_shift (m k r : ℕ) (hm : m ≠ 0) :
    ker (2 * m) (k + m) (2 * r + 1) = -(tw (2 * m) k * ker m k r) := by
  have hm' : (m : ℂ) ≠ 0 := Nat.cast_ne_zero.mpr hm
  unfold ker tw
  have harg : -2 * Complex.I * (Real.pi : ℂ) * ((((k + m : ℕ) : ℂ) * ((2 * r + 1 : ℕ) : ℂ)) / ((2 * m : ℕ) : ℂ)) =
      (-2 * Complex.I * (Real.pi : ℂ) * ((k : ℂ) / ((2 * m : ℕ) : ℂ)) +
        -2 * Complex.I * (Real.pi : ℂ) * (((k : ℂ) * (r : ℂ)) / (m : ℂ))) +
        ((Real.pi : ℂ) * Complex.I + ((-(r + 1 : ℤ) : ℤ) : ℂ) * (2 * (Real.pi : ℂ) * Complex.I)) := by
    push_cast
    field_simp
    ring
  rw [harg, Complex.exp_add, Complex.exp_add (-2 * Complex.I * (Real.pi : ℂ) * ((k : ℂ) / ((2 * m : ℕ) : ℂ))),
    Complex.exp_add ((Real.pi : ℂ) * Complex.I), Complex.exp_pi_mul_I,
    Complex.exp_int_mul_two_pi_mul_I]
  push_cast
  ring

theorem dftVal_eq (x : List ℝ) (k : ℕ) :
    dftVal x k = ∑ j ∈ Finset.range x.length, ((x.getD j 0 : ℝ) : ℂ) * ker x.length k j := rfl

theorem dft_butterfly_lo (x : List ℝ) (m k : ℕ) (hm : 0 < m) (hx : x.length = 2 * m)
    (hk : k < m) :
    dftVal x k = dftVal (evens x) k + tw (2 * m) k * dftVal (odds x) k := by
  have hev : (evens x).length = m := by rw [evens_length, hx]; omega
  have hod : (odds x).length = m := by rw [odds_length, hx]; omega
  unfold dftVal
  rw [hev, hod, hx]
  rw [sum_range_even_odd (fun j => ((x.getD j 0 : ℝ) : ℂ) * ker (2 * m) k j) m]
  congr 1
  · apply Finset.sum_congr rfl
    intro r _
    rw [evens_getD, ker_even m k r hm.ne']
  · rw [Finset.mul_sum]
    apply Finset.sum_congr rfl
    intro r _
    rw [odds_getD, ker_odd m k r hm.ne']
    ring

theorem dft_butterfly_hi (x : List ℝ) (m k : ℕ) (hm : 0 < m) (hx : x.length = 2 * m)
    (hk : k < m) :
    dftVal x (k + m) = dftVal (evens x) k - tw (2 * m) k * dftVal (odds x) k := by
  have hev : (evens x).length = m := by rw [evens_length, hx]; omega
  have hod : (odds x).length = m := by rw [odds_length, hx]; omega
  unfold dftVal
  rw [hev, hod, hx]
  rw [sum_range_even_odd (fun j => ((x.getD j 0 : ℝ) : ℂ) * ker (2 * m) (k + m) j) m]
  have h1 : ∑ r ∈ Finset.range m, ((x.getD (2 * r) 0 : ℝ) : ℂ) * ker (2 * m) (k + m) (2 * r) =
      ∑ j ∈ Finset.range m, (((evens x).getD j 0 : ℝ) : ℂ) * ker m k j := by
    apply Finset.sum_congr rfl
    intro r _
    rw [evens_getD, ker_even_shift m k r hm.ne']
  have h2 : ∑ r ∈ Finset.range m, ((x.getD (2 * r + 1) 0 : ℝ) : ℂ) * ker (2 * m) (k + m) (2 * r + 1) =
      -(tw (2 * m) k * ∑ j ∈ Finset.range m, (((odds x).getD j 0 : ℝ) : ℂ) * ker m k j) := by
    rw [Finset.mul_sum, ← Finset.sum_neg_distrib]
    apply Finset.sum_congr rfl
    intro r _
    rw [odds_getD, ker_odd_shift m k r hm.ne']
    ring
  rw [h1, h2]
  ring

theorem dft_length (y : List ℝ) : (dft y).length = y.length := by
  simp [dft]

theorem dft_getD (y : List ℝ) (k : ℕ) (hk : k < y.length) :
    (dft y).getD k 0 = dftVal y k := by
  unfold dft
  rw [List.getD_eq_getElem?_getD]
  simp [List.getElem?_range, hk]

theorem computeFft_eq_dft : ∀ (t : ℕ) (x : List ℝ), x.length = 2 ^ t → computeFft x = dft x := by
  intro t
  induction t with
  | zero =>
      intro x hx
      rw [pow_zero] at hx
      match x, hx with
      | [a], _ =>
          rw [computeFft]
          rw [dif_pos (by simp)]
          unfold dft
          rw [show List.range ([a] : List ℝ).length = [0] from rfl]
          simp [dftVal, ker, Finset.sum_range_one]
  | succ t ih =>
      intro x hx
      have hm : 0 < 2 ^ t := pow_pos (by norm_num) t
      set m := 2 ^ t with hmdef
      have hx2 : x.length = 2 * m := by rw [hx, pow_succ]; ring
      have hev : (evens x).length = m := by rw [evens_length, hx2]; omega
      have hod : (odds x).length = m := by rw [odds_length, hx2]; omega
      have he := ih (evens x) hev
      have ho := ih (odds x) hod
      rw [computeFft, dif_neg (by omega : ¬x.length < 2), he, ho, hx2]
      have hdiv : 2 * m / 2 = m := by omega
      rw [hdiv]
      apply List.ext_getElem
      · simp [dft_length, hx2]
        omega
      intro i h1 h2
      have hi2m : i < 2 * m := by
        simpa [dft_length, hx2] using h2
      rw [show (dft x)[i] = dftVal x i from by unfold dft; simp [hx2, hi2m]]
      rcases Nat.lt_or_ge i m with hil | hig
      · rw [List.getElem_append_left (by simpa using hil)]
        rw [List.getElem_map, List.getElem_range]
        rw [dft_getD _ _ (by omega : i < (evens x).length),
          dft_getD _ _ (by omega : i < (odds x).length)]
        exact (dft_butterfly_lo x m i hm hx2 hil).symm
      · rw [List.getElem_append_right (by simpa using hig)]
        rw [List.getElem_map, List.getElem_range]
        have hlen : i - (List.map (fun k => (dft (evens x)).getD k 0 + tw (2 * m) k * (dft (odds x)).getD k 0) (List.range m)).length = i - m := by
          simp
        rw [hlen]  -- may be handled by simp above already
        have hkm : i - m < m := by omega
        rw [dft_getD _ _ (by omega : i - m < (evens x).length),
          dft_getD _ _ (by omega : i - m < (odds x).length)]
        have hi : i = (i - m) + m := by omega
        rw [hi, Nat.add_sub_cancel]
        exact (dft_butterfly_hi x m (i - m) hm hx2 hkm).symm

/-- The global `float pi` of fft.c and music.c: declared at file scope with
no initializer and never assigned before `fft` runs, so C static
initialization leaves it 0. -/
def piGlobal : ℝ := 0

/-- Twiddle factor of the butterfly in fft.c / music.c:
`cexp(-I * 2 * pi * t)` with `t = (float)k / size` and `pi` the global above. -/
noncomputable def fftCTw (size k : ℕ) : ℂ :=
  Complex.exp (-Complex.I * 2 * (piGlobal : ℂ) * ((k : ℂ) / (size : ℂ)))

theorem fftCTw_eq_one (size k : ℕ) : fftCTw size k = 1 := by
  simp [fftCTw, piGlobal]

/-- Contents of the output array after the two recursive calls of the C
`fft`: the first call wrote cells `[0, m)` (held in `e`), the second wrote
through the shifted pointer `out + m` (held in `o`, indexed from 0). -/
noncomputable def mergeHalves (e o : ℕ → ℂ) (m : ℕ) : ℕ → ℂ :=
  fun j => if j < m then e j else o (j - m)

/-- `fft` from fft.c / music.c (identical bodies), with the C output array
as a function so that never-written cells keep their previous contents.
`none` models the `assert(size > 0)` firing. The butterfly loop writes
only cells `[0, 2*(size/2))`; for odd sizes the last cell keeps its old
(uninitialized) value, exactly as in C. -/
noncomputable def fftArr (inp : ℕ → ℝ) (s : ℕ) (out : ℕ → ℂ) (size : ℕ) : Option (ℕ → ℂ) :=
  if h0 : size = 0 then none
  else if h1 : size = 1 then some (Function.update out 0 ((inp 0 : ℝ) : ℂ))
  else
    match fftArr inp (2 * s) out (size / 2) with
    | none => none
    | some e =>
      match fftArr (fun j => inp (j + s)) (2 * s) (fun j => e (j + size / 2)) (size / 2) with
      | none => none
      | some o =>
        some (fun j =>
          if j < size / 2 then
            mergeHalves e o (size / 2) j + fftCTw size j * mergeHalves e o (size / 2) (j + size / 2)
          else if j < 2 * (size / 2) then
            mergeHalves e o (size / 2) (j - size / 2) -
              fftCTw size (j - size / 2) * mergeHalves e o (size / 2) j
          else mergeHalves e o (size / 2) j)
termination_by size
decreasing_by all_goals omega

/-- `compute_fft` from plug.c as the same array program, with explicit fuel:
plug.c has no assertion and no `size = 0` case, so on size 0 the recursion
never terminates; `none` means the fuel ran out. The twiddle is
`cexpf(-2*I*PI*t)` with the real constant `PI` (see `tw`). -/
noncomputable def computeFftF : ℕ → (ℕ → ℝ) → ℕ → (ℕ → ℂ) → ℕ → Option (ℕ → ℂ)
  | 0, _, _, _, _ => none
  | fuel + 1, inp, s, out, size =>
    if size = 1 then some (Function.update out 0 ((inp 0 : ℝ) : ℂ))
    else
      match computeFftF fuel inp (2 * s) out (size / 2) with
      | none => none
      | some e =>
        match computeFftF fuel (fun j => inp (j + s)) (2 * s) (fun j => e (j + size / 2)) (size / 2) with
        | none => none
        | some o =>
          some (fun j =>
            if j < size / 2 then
              mergeHalves e o (size / 2) j + tw size j * mergeHalves e o (size / 2) (j + size / 2)
            else if j < 2 * (size / 2) then
              mergeHalves e o (size / 2) (j - size / 2) -
                tw size (j - size / 2) * mergeHalves e o (size / 2) j
            else mergeHalves e o (size / 2) j)

theorem computeFftF_size_zero :
    ∀ (fuel : ℕ) (inp : ℕ → ℝ) (s : ℕ) (out : ℕ → ℂ), computeFftF fuel inp s out 0 = none := by
  intro fuel
  induction fuel with
  | zero => intro inp s out; rfl
  | succ fuel ih =>
      intro inp s out
      rw [computeFftF, if_neg (by omega)]
      rw [show (0 : ℕ) / 2 = 0 from rfl, ih]

theorem fftArr_one (inp : ℕ → ℝ) (s : ℕ) (out : ℕ → ℂ) :
    fftArr inp s out 1 = some (Function.update out 0 ((inp 0 : ℝ) : ℂ)) := by
  rw [fftArr]
  norm_num

theorem fftArr_isSome :
    ∀ (size : ℕ), 0 < size → ∀ (inp : ℕ → ℝ) (s : ℕ) (out : ℕ → ℂ),
      (fftArr inp s out size).isSome = true := by
  intro size
  induction size using Nat.strong_induction_on with
  | _ size ih =>
    intro hpos inp s out
    rcases Nat.lt_or_ge size 2 with h2 | h2
    · have h1 : size = 1 := by omega
      subst h1
      rw [fftArr_one]
      rfl
    · rw [fftArr, dif_neg (by omega), dif_neg (by omega)]
      obtain ⟨e, he⟩ := Option.isSome_iff_exists.mp
        (ih (size / 2) (by omega) (by omega) inp (2 * s) out)
      obtain ⟨o, ho⟩ := Option.isSome_iff_exists.mp
        (ih (size / 2) (by omega) (by omega) (fun j => inp (j + s)) (2 * s)
          (fun j => e (j + size / 2)))
      simp only [he, ho, Option.isSome_some]

theorem computeFftF_pow :
    ∀ (t : ℕ) (inp : ℕ → ℝ) (s : ℕ) (out : ℕ → ℂ),
      (computeFftF (t + 1) inp s out (2 ^ t)).isSome = true := by
  intro t
  induction t with
  | zero => intro inp s out; rw [pow_zero, computeFftF, if_pos rfl]; rfl
  | succ t ih =>
      intro inp s out
      have hge : 2 ≤ 2 ^ (t + 1) := by
        calc 2 = 2 ^ 1 := rfl
        _ ≤ 2 ^ (t + 1) := Nat.pow_le_pow_right (by norm_num) (by omega)
      have hsz : 2 ^ (t + 1) / 2 = 2 ^ t := by rw [pow_succ]; omega
      rw [computeFftF, if_neg (by omega), hsz]
      obtain ⟨e, he⟩ := Option.isSome_iff_exists.mp (ih inp (2 * s) out)
      obtain ⟨o, ho⟩ := Option.isSome_iff_exists.mp
        (ih (fun j => inp (j + s)) (2 * s) (fun j => e (j + 2 ^ t)))
      simp only [he, ho, Option.isSome_some]

theorem fftArr_step (inp : ℕ → ℝ) (s : ℕ) (out : ℕ → ℂ) (m : ℕ) (hm : 0 < m)
    (e o : ℕ → ℂ) (he : fftArr inp (2 * s) out m = some e)
    (ho : fftArr (fun j => inp (j + s)) (2 * s) (fun j => e (j + m)) m = some o) :
    fftArr inp s out (2 * m) = some (fun j =>
      if j < m then mergeHalves e o m j + fftCTw (2 * m) j * mergeHalves e o m (j + m)
      else if j < 2 * m then
        mergeHalves e o m (j - m) - fftCTw (2 * m) (j - m) * mergeHalves e o m j
      else mergeHalves e o m j) := by
  have hd : 2 * m / 2 = m := by omega
  rw [fftArr, dif_neg (by omega), dif_neg (by omega), hd]
  simp only [he, ho]

/-- C3 counterexample: a non-power-of-two size does not fail fast. `fft`
(fft.c) at size 3 passes its assertion and returns normally, and output
cell 2 still holds the prior contents (37) of the uninitialized output
array; `compute_fft` (plug.c) at size 3 likewise returns normally. -/
theorem C3_counterexample :
    Option.map (fun r => r 2) (fftArr (fun i => (i : ℝ)) 1 (fun _ => (37 : ℂ)) 3) = some 37 ∧
    Option.map (fun r => r 2)
      (computeFftF 2 (fun i => (i : ℝ)) 1 (fun _ => (37 : ℂ)) 3) = some 37 := by
  constructor
  · rw [fftArr, dif_neg (by omega), dif_neg (by omega),
      show (3 : ℕ) / 2 = 1 from rfl]
    simp only [fftArr_one]
    simp [mergeHalves, Function.update]
  · rfl

/-- C3 (amended): the only assertion is `assert(size > 0)` in fft.c's
`fft`, which fires exactly at size 0; plug.c's `compute_fft` has no
assertion at all and fails to terminate at size 0 (no amount of fuel
returns a result); every positive size — power of two or not — passes the
assertion and returns normally; in particular under the power-of-two
precondition no assertion fires and both functions return normally. -/
theorem C3_amended (n t : ℕ) (hn : n = 2 ^ t) (inp : ℕ → ℝ) (s : ℕ) (out : ℕ → ℂ) :
    fftArr inp s out 0 = none ∧
    (∀ fuel, computeFftF fuel inp s out 0 = none) ∧
    (fftArr inp s out n).isSome = true ∧
    (computeFftF (t + 1) inp s out n).isSome = true ∧
    (∀ k, 0 < k → (fftArr inp s out k).isSome = true) := by
  refine ⟨by rw [fftArr, dif_pos rfl],
    fun fuel => computeFftF_size_zero fuel inp s out, ?_, ?_,
    fun k hk => fftArr_isSome k hk inp s out⟩
  · exact fftArr_isSome n (by subst hn; positivity) inp s out
  · subst hn
    exact computeFftF_pow t inp s out

theorem C3_witness :
    fftArr (fun _ => (0 : ℝ)) 1 (fun _ => (0 : ℂ)) 0 = none ∧
    (fftArr (fun _ => (0 : ℝ)) 1 (fun _ => (0 : ℂ)) 4).isSome = true := by
  have h := C3_amended 4 2 (by norm_num) (fun _ => (0 : ℝ)) 1 (fun _ => (0 : ℂ))
  exact ⟨h.1, h.2.2.1⟩

theorem ker_four_one_one : ker 4 1 1 = -Complex.I := by
  unfold ker
  have harg : -2 * Complex.I * (Real.pi : ℂ) * ((((1 : ℕ) : ℂ) * ((1 : ℕ) : ℂ)) / ((4 : ℕ) : ℂ)) =
      ((-(Real.pi / 2) : ℝ) : ℂ) * Complex.I := by
    push_cast
    ring
  rw [harg, Complex.exp_mul_I, ← Complex.ofReal_cos, ← Complex.ofReal_sin,
    Real.cos_neg, Real.sin_neg, Real.cos_pi_div_two, Real.sin_pi_div_two]
  push_cast
  ring

/-- C10: the global `float pi` of fft.c / music.c is zero, the twiddle
`cexp(-I*2*pi*t)` is 1 in every butterfly, so their `fft` combines the
sub-transforms as plain sum/difference `out[k] = E[k]+O[k]`,
`out[k+m] = E[k]-O[k]`; on the size-4 input (0,1,0,0) it returns 1 at
index 1 while plug.c's `compute_fft` returns `-i` there, so the outputs
differ. -/
theorem C10_zero_pi (m : ℕ) (hm : 0 < m) (inp : ℕ → ℝ) (s : ℕ) (out : ℕ → ℂ)
    (e o : ℕ → ℂ) (he : fftArr inp (2 * s) out m = some e)
    (ho : fftArr (fun j => inp (j + s)) (2 * s) (fun j => e (j + m)) m = some o) :
    piGlobal = 0 ∧
    (∀ size k, fftCTw size k = 1) ∧
    fftArr inp s out (2 * m) = some (fun j =>
      if j < m then mergeHalves e o m j + mergeHalves e o m (j + m)
      else if j < 2 * m then mergeHalves e o m (j - m) - mergeHalves e o m j
      else mergeHalves e o m j) ∧
    Option.map (fun r => r 1)
      (fftArr (fun i => if i = 1 then (1 : ℝ) else 0) 1 (fun _ => (0 : ℂ)) 4) = some 1 ∧
    (computeFft [0, 1, 0, 0]).getD 1 0 = -Complex.I ∧
    (1 : ℂ) ≠ -Complex.I := by
  refine ⟨rfl, fftCTw_eq_one, ?_, ?_, ?_, by simp [Complex.ext_iff]⟩
  · rw [fftArr_step inp s out m hm e o he ho]
    congr 1
    funext j
    simp [fftCTw_eq_one]
  · rw [fftArr, dif_neg (by omega), dif_neg (by omega), show (4 : ℕ) / 2 = 2 from rfl]
    rw [fftArr, dif_neg (by omega), dif_neg (by omega), show (2 : ℕ) / 2 = 1 from rfl]
    simp only [fftArr_one]
    simp [fftArr, mergeHalves, Function.update, fftCTw, piGlobal]
  · have h := computeFft_eq_dft 2 [(0 : ℝ), 1, 0, 0] (by norm_num)
    rw [h, dft_getD _ _ (by norm_num)]
    unfold dftVal
    rw [show ([(0 : ℝ), 1, 0, 0] : List ℝ).length = 4 from rfl,
      Finset.sum_range_succ, Finset.sum_range_succ, Finset.sum_range_succ,
      Finset.sum_range_one]
    norm_num [List.getD]
    exact ker_four_one_one

theorem C10_witness :
    ∃ r, fftArr (fun _ => (0 : ℝ)) 1 (fun _ => (0 : ℂ)) 2 = some r := by
  obtain ⟨-, -, h3, -⟩ := C10_zero_pi 1 one_pos (fun _ => (0 : ℝ)) 1 (fun _ => (0 : ℂ))
    _ _ (fftArr_one _ _ _) (fftArr_one _ _ _)
  exact ⟨_, h3⟩

/-- The sample ring buffer of `Plug`: the `samples[N]` array and the
`sample_write` cursor. -/
structure RingBuf where
  samples : ℕ → ℝ
  write : ℕ

/-- Zero-initialized ring buffer with cursor 0, as after `plug_init` /
`switch_track` (`memset(plug->samples, 0, …)`, `sample_write = 0`). -/
def ringInit : RingBuf := ⟨fun _ => 0, 0⟩

/-- One iteration of the loop in `process_audio`:
`samples[w] = v; w = (w + 1) % N`. -/
def pushSample (N : ℕ) (st : RingBuf) (v : ℝ) : RingBuf :=
  ⟨Function.update st.samples st.write v, (st.write + 1) % N⟩

/-- `process_audio`: for each of `frames` frames, pushes channel 0 of the
interleaved buffer (`fs[i * ch]`), then publishes the cursor. -/
def processAudio (N ch : ℕ) (buf : ℕ → ℝ) (frames : ℕ) (st : RingBuf) : RingBuf :=
  (List.range frames).foldl (fun s i => pushSample N s (buf (i * ch))) st

/-- The consumer read in `update_visualizer`: acquire the cursor `w`, then
read `samples[(w + i) % N]` for `i = 0 .. N-1` (oldest first). -/
def snapshot (N : ℕ) (st : RingBuf) : List ℝ :=
  (List.range N).map fun i => st.samples ((st.write + i) % N)

theorem mod_add_ne (N w d : ℕ) (hw : w < N) (hd0 : 0 < d) (hdN : d < N) :
    (w + d) % N ≠ w := by
  intro h
  rcases Nat.lt_or_ge (w + d) N with h1 | h1
  · rw [Nat.mod_eq_of_lt h1] at h
    omega
  · have h2 : (w + d) % N = w + d - N := by
      rw [Nat.mod_eq_sub_mod h1, Nat.mod_eq_of_lt (by omega)]
    omega

theorem snapshot_length (N : ℕ) (st : RingBuf) : (snapshot N st).length = N := by
  simp [snapshot]

theorem snapshot_push (N : ℕ) (hN : 0 < N) (st : RingBuf) (hw : st.write < N) (v : ℝ) :
    snapshot N (pushSample N st v) = (snapshot N st).drop 1 ++ [v] := by
  apply List.ext_getElem
  · simp [snapshot]
    omega
  intro i h1 h2
  have hiN : i < N := by simpa [snapshot] using h1
  simp only [snapshot, pushSample, List.getElem_map, List.getElem_range]
  rw [List.getElem_range]
  have hmod : ((st.write + 1) % N + i) % N = (st.write + (1 + i)) % N := by
    rw [Nat.mod_add_mod, Nat.add_assoc]
  rw [hmod]
  rcases Nat.lt_or_ge i (N - 1) with hlt | hge
  · have hne : (st.write + (1 + i)) % N ≠ st.write :=
      mod_add_ne N st.write (1 + i) hw (by omega) (by omega)
    rw [Function.update_noteq hne]
    rw [List.getElem_append_left (by simp [snapshot]; omega)]
    simp only [snapshot, List.getElem_drop, List.getElem_map, List.getElem_range]
  · have hi : i = N - 1 := by
      have : i < (N - 1) + 1 := by
        simpa [snapshot] using h2
      omega
    subst hi
    have heq : (st.write + (1 + (N - 1))) % N = st.write := by
      have h1N : 1 + (N - 1) = N := by omega
      rw [h1N, Nat.add_mod_right, Nat.mod_eq_of_lt hw]
    rw [heq, Function.update_same]
    rw [List.getElem_append_right (by simp [snapshot])]
    simp [snapshot]

theorem snapshot_foldl (N : ℕ) (hN : 0 < N) :
    ∀ (vs : List ℝ) (st : RingBuf), st.write < N →
      snapshot N (vs.foldl (pushSample N) st) = (snapshot N st ++ vs).drop vs.length := by
  intro vs
  induction vs with
  | nil => intro st _; simp
  | cons v rest ih =>
      intro st hw
      have hw' : (pushSample N st v).write < N := Nat.mod_lt _ hN
      rw [List.foldl_cons, ih (pushSample N st v) hw', snapshot_push N hN st hw v]
      have hlen : 1 ≤ (snapshot N st).length := by
        rw [snapshot_length]
        omega
      rw [List.append_assoc, List.singleton_append, List.length_cons,
        Nat.add_comm rest.length 1, ← List.drop_drop,
        List.drop_append_of_le_length hlen]

theorem snapshot_init (N : ℕ) : snapshot N ringInit = List.replicate N 0 := by
  apply List.ext_getElem
  · simp [snapshot]
  intro i h1 h2
  simp [snapshot, ringInit]

/-- C2: starting from the all-zero ring buffer with cursor 0, pushing
`N + k` samples through `process_audio` (taking channel 0 of each frame)
and then taking the consumer snapshot (cursor read, indices `(w+i) % N`)
yields exactly the last `N` pushed values in chronological order; for
`k = 0` that is all `N` pushed values in their original order. -/
theorem C2_ring_buffer (N ch k frames : ℕ) (hN : 0 < N) (buf : ℕ → ℝ)
    (hframes : frames = N + k) :
    snapshot N (processAudio N ch buf frames ringInit) =
      ((List.range frames).map fun i => buf (i * ch)).drop k := by
  unfold processAudio
  rw [← List.foldl_map (fun i => buf (i * ch)) (pushSample N)]
  rw [snapshot_foldl N hN _ ringInit (by simpa [ringInit] using hN)]
  rw [snapshot_init N]
  have hvl : ((List.range frames).map fun i => buf (i * ch)).length = N + k := by
    simp [hframes]
  rw [hvl, List.drop_append_eq_append_drop, List.drop_eq_nil_of_le (by simp),
    List.length_replicate, List.nil_append]
  congr 1
  omega

theorem C2_witness :
    snapshot 2 (processAudio 2 1 (fun i => (i : ℝ)) 3 ringInit) =
      ((List.range 3).map fun i => ((i * 1 : ℕ) : ℝ)).drop 1 :=
  C2_ring_buffer 2 1 1 3 (by norm_num) (fun i => (i : ℝ)) (by norm_num)

/-- The fields of `Plug` (plug.c) that the visualizer state claims are
about. -/
structure PlugState where
  samples : ℕ → ℝ
  sampleWrite : ℕ
  spectrum : ℕ → ℂ
  smear : ℕ → ℝ
  bars : ℕ → ℝ
  bassHistory : ℝ
  overallLevel : ℝ
  currentTrack : ℤ
  tracksCount : ℕ
  sampleRate : ℕ
  paused : Bool
  hasMusic : Bool
  windowReady : Bool

/-- `switch_track` from plug.c: returns unchanged when the playlist is
empty; otherwise wraps the index, zeroes samples, bars, smear, spectrum
and the write cursor, resets `bass_history` to 0 and `overall_level` to
0.5, stores the new track's sample rate, clears `paused` and sets
`has_music`. (Stream attach/detach is external.) -/
noncomputable def switchTrack (st : PlugState) (index : ℤ) (nextRate : ℕ) : PlugState :=
  if st.tracksCount = 0 then st
  else
    { st with
      currentTrack :=
        if index < 0 then ((st.tracksCount : ℤ) - 1)
        else if (st.tracksCount : ℤ) ≤ index then 0
        else index
      samples := fun _ => 0
      bars := fun _ => 0
      smear := fun _ => 0
      spectrum := fun _ => 0
      sampleWrite := 0
      bassHistory := 0
      overallLevel := 0.5
      sampleRate := nextRate
      paused := false
      hasMusic := true }

/-- `plug_init` from plug.c: zeroed state, `overall_level = 0.5`,
`volume`-related fields omitted. -/
noncomputable def plugInit : PlugState :=
  { samples := fun _ => 0
    sampleWrite := 0
    spectrum := fun _ => 0
    smear := fun _ => 0
    bars := fun _ => 0
    bassHistory := 0
    overallLevel := 0.5
    currentTrack := 0
    tracksCount := 0
    sampleRate := 0
    paused := false
    hasMusic := false
    windowReady := false }

/-- C4: after `switch_track` on a non-empty playlist, every bar, smear,
ring-buffer sample and spectrum entry and `bass_history` are 0, the write
cursor is 0, and `overall_level` is its neutral default 0.5. -/
theorem C4_track_change_reset (st : PlugState) (index : ℤ) (rate : ℕ)
    (h : st.tracksCount ≠ 0) :
    (∀ i, (switchTrack st index rate).bars i = 0) ∧
    (∀ i, (switchTrack st index rate).smear i = 0) ∧
    (∀ i, (switchTrack st index rate).samples i = 0) ∧
    (∀ i, (switchTrack st index rate).spectrum i = 0) ∧
    (switchTrack st index rate).bassHistory = 0 ∧
    (switchTrack st index rate).sampleWrite = 0 ∧
    (switchTrack st index rate).overallLevel = 0.5 := by
  unfold switchTrack
  rw [if_neg h]
  exact ⟨fun _ => rfl, fun _ => rfl, fun _ => rfl, fun _ => rfl, rfl, rfl, rfl⟩

theorem C4_witness :
    (switchTrack ⟨fun _ => 1, 5, fun _ => 1, fun _ => 1, fun _ => 1, 2, 7, 0, 2,
      44100, true, true, true⟩ 1 48000).overallLevel = 0.5 ∧
    (switchTrack ⟨fun _ => 1, 5, fun _ => 1, fun _ => 1, fun _ => 1, 2, 7, 0, 2,
      44100, true, true, true⟩ 1 48000).bars 3 = 0 := by
  have h := C4_track_change_reset
    ⟨fun _ => 1, 5, fun _ => 1, fun _ => 1, fun _ => 1, 2, 7, 0, 2,
      44100, true, true, true⟩ 1 48000 (by norm_num)
  exact ⟨h.2.2.2.2.2.2, h.1 3⟩

/-- `get_amplitude` from plug.c: `(a > b) ? a : b` with `a = |Re z|`,
`b = |Im z|`. -/
noncomputable def getAmplitude (z : ℂ) : ℝ :=
  if |z.re| > |z.im| then |z.re| else |z.im|

/-- `amp` from music.c: `if (a < b) return b; return a;`. -/
noncomputable def ampMusic (z : ℂ) : ℝ :=
  if |z.re| < |z.im| then |z.im| else |z.re|

/-- C9: both amplitude functions compute the infinity norm
`max(|Re|, |Im|)`; the amplitude of 0 is 0 and that of 3+4i is 4 (while
the Euclidean magnitude is 5). -/
theorem C9_amplitude_infinity_norm :
    (∀ z : ℂ, getAmplitude z = max |z.re| |z.im|) ∧
    (∀ z : ℂ, ampMusic z = max |z.re| |z.im|) ∧
    getAmplitude 0 = 0 ∧ ampMusic 0 = 0 ∧
    getAmplitude (3 + 4 * Complex.I) = 4 ∧ ampMusic (3 + 4 * Complex.I) = 4 ∧
    Complex.abs (3 + 4 * Complex.I) = 5 ∧ (4 : ℝ) ≠ 5 := by
  have hg : ∀ z : ℂ, getAmplitude z = max |z.re| |z.im| := by
    intro z
    unfold getAmplitude
    rcases lt_or_ge |z.im| |z.re| with h | h
    · rw [if_pos h, max_eq_left h.le]
    · rw [if_neg (not_lt.mpr h), max_eq_right h]
  have ha : ∀ z : ℂ, ampMusic z = max |z.re| |z.im| := by
    intro z
    unfold ampMusic
    rcases lt_or_ge |z.re| |z.im| with h | h
    · rw [if_pos h, max_eq_right h.le]
    · rw [if_neg (not_lt.mpr h), max_eq_left h]
  have hre : (3 + 4 * Complex.I).re = 3 := by simp
  have him : (3 + 4 * Complex.I).im = 4 := by simp
  refine ⟨hg, ha, ?_, ?_, ?_, ?_, ?_, by norm_num⟩
  · rw [hg]; simp
  · rw [ha]; simp
  · rw [hg, hre, him]; norm_num
  · rw [ha, hre, him]; norm_num
  · rw [Complex.abs_apply, Complex.normSq_apply, hre, him]
    rw [show (3 : ℝ) * 3 + 4 * 4 = 5 ^ 2 by norm_num]
    exact Real.sqrt_sq (by norm_num)

/-- Exponential band-to-frequency map of the bucketizer
(`f = freq_min * powf(freq_max/freq_min, t)` with `freq_min = 20`,
`freq_max = sample_rate * 0.5`). -/
noncomputable def bandFreq (rate : ℕ) (t : ℝ) : ℝ :=
  20 * (((rate : ℝ) * 0.5) / 20) ^ t

/-- Bin index `(size_t)(f * N / sample_rate)` with `N = 8192`. -/
noncomputable def bandBin (rate : ℕ) (t : ℝ) : ℕ :=
  Nat.floor (bandFreq rate t * 8192 / (rate : ℝ))

/-- Lower bin bound of band `i`: `t0 = (float)i / BARS`, `BARS = 72`. -/
noncomputable def kLo (rate i : ℕ) : ℕ := bandBin rate ((i : ℝ) / 72)

/-- Upper bin bound of band `i` before forcing: `t1 = (float)(i+1) / BARS`. -/
noncomputable def kHi (rate i : ℕ) : ℕ := bandBin rate (((i : ℕ) + 1 : ℕ) / 72)

/-- Upper bin bound after the forcing step `if (k1 <= k0) k1 = k0 + 1`. -/
noncomputable def kHiForced (rate i : ℕ) : ℕ :=
  if kHi rate i ≤ kLo rate i then kLo rate i + 1 else kHi rate i

theorem kLo_lt_half (i : ℕ) (hi : i < 72) : kLo 44100 i < 4096 := by
  unfold kLo bandBin bandFreq
  have hbase : (1 : ℝ) < (((44100 : ℕ) : ℝ) * 0.5) / 20 := by norm_num
  have hexp : (i : ℝ) / 72 < 1 := by
    rw [div_lt_one (by norm_num)]
    have : (i : ℝ) < (72 : ℕ) := Nat.cast_lt.mpr hi
    push_cast at this
    linarith
  have hlt : (((44100 : ℕ) : ℝ) * 0.5 / 20) ^ ((i : ℝ) / 72) <
      (((44100 : ℕ) : ℝ) * 0.5 / 20) ^ (1 : ℝ) :=
    (Real.rpow_lt_rpow_left_iff hbase).mpr hexp
  rw [Real.rpow_one] at hlt
  have hpos : (0 : ℝ) ≤ 20 * (((44100 : ℕ) : ℝ) * 0.5 / 20) ^ ((i : ℝ) / 72) * 8192 /
      ((44100 : ℕ) : ℝ) := by
    have h1 : (0 : ℝ) < (((44100 : ℕ) : ℝ) * 0.5) / 20 := by norm_num
    have h2 : (0 : ℝ) < (((44100 : ℕ) : ℝ) * 0.5 / 20) ^ ((i : ℝ) / 72) :=
      Real.rpow_pos_of_pos h1 _
    have h3 : (0 : ℝ) < ((44100 : ℕ) : ℝ) := by norm_num
    positivity
  rw [Nat.floor_lt hpos]
  push_cast at hlt ⊢
  rw [div_lt_iff₀ (by norm_num : (0 : ℝ) < 44100)]
  nlinarith [hlt]

/-- C5: with BARS = 72, N = 8192, sample rate 44100, every band's bounds
satisfy `k1 > k0` after the forcing step, the lower bound is below N/2,
and the aggregation range `[k0, k1) ∩ [0, N/2)` is non-empty. -/
theorem C5_band_bins (i : ℕ) (hi : i < 72) :
    kLo 44100 i < kHiForced 44100 i ∧
    kLo 44100 i < 4096 ∧
    (∃ k, kLo 44100 i ≤ k ∧ k < kHiForced 44100 i ∧ k < 4096) := by
  have hk0 : kLo 44100 i < 4096 := kLo_lt_half i hi
  have hlt : kLo 44100 i < kHiForced 44100 i := by
    unfold kHiForced
    split
    · omega
    · omega
  exact ⟨hlt, hk0, ⟨kLo 44100 i, le_refl _, hlt, hk0⟩⟩

theorem C5_witness :
    kLo 44100 0 < kHiForced 44100 0 ∧ kLo 44100 0 < 4096 ∧
    kLo 44100 71 < kHiForced 44100 71 ∧ kLo 44100 71 < 4096 := by
  have h0 := C5_band_bins 0 (by norm_num)
  have h71 := C5_band_bins 71 (by norm_num)
  exact ⟨h0.1, h0.2.1, h71.1, h71.2.1⟩

/-- `max_amp` computation of `update_visualizer`: starts at `1e-6` and
takes the running maximum of `get_amplitude` over the first `N/2 = 4096`
spectrum entries. -/
noncomputable def maxAmp (spec : ℕ → ℂ) : ℝ :=
  (List.range 4096).foldl
    (fun m i => if getAmplitude (spec i) > m then getAmplitude (spec i) else m) 1e-6

/-- `band_max` of `update_visualizer`: maximum of `get_amplitude` over
bins `k` with `k0 ≤ k < k1` and `k < N/2`, starting from 0. -/
noncomputable def bandMax (spec : ℕ → ℂ) (j0 j1 : ℕ) : ℝ :=
  (List.range' j0 (min j1 4096 - j0)).foldl
    (fun m k => if getAmplitude (spec k) > m then getAmplitude (spec k) else m) 0

/-- `normalized = band_max / max_amp` of `update_visualizer`. -/
noncomputable def normalizedBand (spec : ℕ → ℂ) (j0 j1 : ℕ) : ℝ :=
  bandMax spec j0 j1 / maxAmp spec

theorem foldl_max_init_le (g : ℕ → ℝ) :
    ∀ (l : List ℕ) (a : ℝ), a ≤ l.foldl (fun m i => if g i > m then g i else m) a := by
  intro l
  induction l with
  | nil => intro a; simp
  | cons x xs ih =>
      intro a
      rw [List.foldl_cons]
      refine le_trans ?_ (ih _)
      split
      · exact le_of_lt (by assumption)
      · exact le_refl a

theorem foldl_max_mem_le (g : ℕ → ℝ) :
    ∀ (l : List ℕ) (a : ℝ) (x : ℕ), x ∈ l →
      g x ≤ l.foldl (fun m i => if g i > m then g i else m) a := by
  intro l
  induction l with
  | nil => intro a x hx; simp at hx
  | cons y ys ih =>
      intro a x hx
      rw [List.foldl_cons]
      rcases List.mem_cons.mp hx with h | h
      · subst h
        refine le_trans ?_ (foldl_max_init_le g ys _)
        split
        · exact le_refl _
        · exact not_lt.mp (by assumption)
      · exact ih _ x h

theorem foldl_max_eq_init_or_mem (g : ℕ → ℝ) :
    ∀ (l : List ℕ) (a : ℝ),
      l.foldl (fun m i => if g i > m then g i else m) a = a ∨
        ∃ x ∈ l, l.foldl (fun m i => if g i > m then g i else m) a = g x := by
  intro l
  induction l with
  | nil => intro a; left; rfl
  | cons y ys ih =>
      intro a
      rw [List.foldl_cons]
      rcases ih (if g y > a then g y else a) with h | ⟨x, hx, hfx⟩
      · rw [h]
        split
        · right
          exact ⟨y, List.mem_cons_self y ys, rfl⟩
        · left
          rfl
      · right
        exact ⟨x, List.mem_cons_of_mem y hx, hfx⟩

theorem getAmplitude_zero : getAmplitude 0 = 0 := by
  simp [getAmplitude]

/-- C7: the normalization divisor is the frame maximum amplitude over the
first N/2 spectrum entries floored at 1e-6, hence at least 1e-6 and
strictly positive for every spectrum; on the all-zero spectrum every
band's normalized value is 0. -/
theorem C7_normalization (spec : ℕ → ℂ) :
    (1e-6 : ℝ) ≤ maxAmp spec ∧
    0 < maxAmp spec ∧
    (∀ i, i < 4096 → getAmplitude (spec i) ≤ maxAmp spec) ∧
    (maxAmp spec = 1e-6 ∨ ∃ i, i < 4096 ∧ maxAmp spec = getAmplitude (spec i)) ∧
    ((∀ i, spec i = 0) → ∀ j0 j1, normalizedBand spec j0 j1 = 0) := by
  have hinit : (1e-6 : ℝ) ≤ maxAmp spec := by
    unfold maxAmp
    exact foldl_max_init_le _ _ _
  refine ⟨hinit, lt_of_lt_of_le (by norm_num) hinit, ?_, ?_, ?_⟩
  · intro i hi
    unfold maxAmp
    exact foldl_max_mem_le (fun j => getAmplitude (spec j)) (List.range 4096) 1e-6 i
      (List.mem_range.mpr hi)
  · unfold maxAmp
    rcases foldl_max_eq_init_or_mem (fun i => getAmplitude (spec i)) (List.range 4096) 1e-6
      with h | ⟨x, hx, hfx⟩
    · left; exact h
    · right; exact ⟨x, List.mem_range.mp hx, hfx⟩
  · intro hz j0 j1
    unfold normalizedBand
    have hb : bandMax spec j0 j1 = 0 := by
      unfold bandMax
      rcases foldl_max_eq_init_or_mem (fun k => getAmplitude (spec k))
        (List.range' j0 (min j1 4096 - j0)) 0 with h | ⟨x, _, hfx⟩
      · exact h
      · rw [hfx, hz x, getAmplitude_zero]
    rw [hb, zero_div]

theorem C7_witness :
    0 < maxAmp (fun _ => 0) ∧ normalizedBand (fun _ => 0) 3 7 = 0 :=
  ⟨(C7_normalization (fun _ => 0)).2.1,
    (C7_normalization (fun _ => 0)).2.2.2.2 (fun _ => rfl) 3 7⟩

/-- First branch pair of the per-band smoothing in `update_visualizer`:
`bars[i] += (target - bars[i]) * rate * dt` with the fast attack rate
`20 + bass_history*10` when `target > bars[i]`, else the slow decay rate
`4.5 + bass_history*2`. -/
noncomputable def rawStep (b dt target v : ℝ) : ℝ :=
  if target > v then v + (target - v) * (20 + b * 10) * dt
  else v + (target - v) * (4.5 + b * 2) * dt

/-- `if (bars[i] < 0) bars[i] = 0`. -/
noncomputable def clampLow (v : ℝ) : ℝ := if v < 0 then 0 else v

/-- `if (bars[i] > 1.5) bars[i] = 1.5`. -/
noncomputable def clampHigh (v : ℝ) : ℝ := if v > 1.5 then 1.5 else v

/-- One full smoothing update of a band value (lines 714-727 of plug.c). -/
noncomputable def smoothStep (b dt target v : ℝ) : ℝ :=
  clampHigh (clampLow (rawStep b dt target v))

/-- The spec's held-target scenario: the band value starts at 0 and the
target is 1.0 on every frame, with fixed `bass_history` and frame delta. -/
noncomputable def smoothSeq (b dt : ℝ) : ℕ → ℝ
  | 0 => 0
  | n + 1 => smoothStep b dt 1 (smoothSeq b dt n)

/-- C6 counterexample: with `bass_history = 0` and a frame delta of 1
second the value jumps from 0 to the 1.5 ceiling (overshooting the held
target 1.0) and then back to 0 — the sequence does not monotonically
approach the target, so the monotonicity part of the claim fails without
a bound on `rate * dt`. -/
theorem C6_counterexample :
    smoothSeq 0 1 1 = 1.5 ∧ smoothSeq 0 1 2 = 0 ∧
    ¬ smoothSeq 0 1 1 ≤ smoothSeq 0 1 2 ∧
    |1 - smoothSeq 0 1 2| > |1 - smoothSeq 0 1 1| := by
  have h1 : smoothSeq 0 1 1 = 1.5 := by
    show smoothStep 0 1 1 0 = 1.5
    unfold smoothStep rawStep clampLow clampHigh
    norm_num
  have h2 : smoothSeq 0 1 2 = 0 := by
    show smoothStep 0 1 1 (smoothSeq 0 1 1) = 0
    rw [h1]
    unfold smoothStep rawStep clampLow clampHigh
    norm_num
  have e1 : |1 - smoothSeq 0 1 2| = 1 := by
    rw [h2]
    norm_num
  have e2 : |1 - smoothSeq 0 1 1| = 1 / 2 := by
    rw [h1, show (1 : ℝ) - 1.5 = -(1 / 2) from by norm_num, abs_neg,
      abs_of_nonneg (by norm_num : (0 : ℝ) ≤ 1 / 2)]
  refine ⟨h1, h2, by rw [h1, h2]; norm_num, by rw [e1, e2]; norm_num⟩

theorem smoothStep_attack (b dt v : ℝ) (hb : 0 ≤ b) (hdt : 0 < dt)
    (hstab : (20 + b * 10) * dt ≤ 1) (h0 : 0 ≤ v) (hlt : v < 1) :
    smoothStep b dt 1 v = v + (1 - v) * (20 + b * 10) * dt ∧
    0 ≤ v + (1 - v) * (20 + b * 10) * dt ∧
    v + (1 - v) * (20 + b * 10) * dt ≤ 1 := by
  have hnn : (0 : ℝ) ≤ 1 - v := by linarith
  have hR : 0 < (20 + b * 10) * dt := mul_pos (by nlinarith) hdt
  have hmul : (1 - v) * ((20 + b * 10) * dt) ≤ (1 - v) * 1 :=
    mul_le_mul_of_nonneg_left hstab hnn
  have hterm : (0 : ℝ) ≤ (1 - v) * ((20 + b * 10) * dt) := mul_nonneg hnn hR.le
  have hlo : 0 ≤ v + (1 - v) * (20 + b * 10) * dt := by nlinarith
  have hup : v + (1 - v) * (20 + b * 10) * dt ≤ 1 := by nlinarith
  refine ⟨?_, hlo, hup⟩
  unfold smoothStep rawStep clampLow clampHigh
  rw [if_pos hlt, if_neg (not_lt.mpr hlo), if_neg (not_lt.mpr (by linarith))]

theorem smoothStep_at_one (b dt : ℝ) : smoothStep b dt 1 1 = 1 := by
  unfold smoothStep rawStep clampLow clampHigh
  norm_num

/-- C6 (amended): for every `bass_history ≥ 0` and every positive frame
delta, the attack rate `20 + 10*bass_history` strictly exceeds the decay
rate `4.5 + 2*bass_history` and the per-frame movement toward the target
is strictly larger under the attack rate; additionally, under the
no-overshoot condition `(20 + 10*bass_history)*dt ≤ 1` (satisfied at the
code's 60 FPS target for every bass_history ≤ 4) the held-target sequence
starting at 0 is monotone nondecreasing, stays in [0, 1], never exceeds
the 1.5 ceiling, strictly increases while below the target, and its gap
to the target contracts geometrically each frame. Without that condition
the sequence can overshoot and oscillate (see the counterexample). -/
theorem C6_amended (b dt : ℝ) (hb : 0 ≤ b) (hdt : 0 < dt) :
    (4.5 + b * 2) * dt < (20 + b * 10) * dt ∧
    (∀ g : ℝ, 0 < g → g * ((4.5 + b * 2) * dt) < g * ((20 + b * 10) * dt)) ∧
    ((20 + b * 10) * dt ≤ 1 →
      (∀ k, smoothSeq b dt k ≤ smoothSeq b dt (k + 1)) ∧
      (∀ k, 0 ≤ smoothSeq b dt k ∧ smoothSeq b dt k ≤ 1) ∧
      (∀ k, 1 - smoothSeq b dt (k + 1) =
        (1 - smoothSeq b dt k) * (1 - (20 + b * 10) * dt)) ∧
      (∀ k, smoothSeq b dt k < 1 → smoothSeq b dt k < smoothSeq b dt (k + 1))) := by
  have hRpos : 0 < (20 + b * 10) * dt := mul_pos (by nlinarith) hdt
  have hrate : (4.5 + b * 2) * dt < (20 + b * 10) * dt :=
    mul_lt_mul_of_pos_right (by linarith) hdt
  refine ⟨hrate, fun g hg => mul_lt_mul_of_pos_left hrate hg, fun hstab => ?_⟩
  have bounds : ∀ k, 0 ≤ smoothSeq b dt k ∧ smoothSeq b dt k ≤ 1 := by
    intro k
    induction k with
    | zero => norm_num [smoothSeq]
    | succ k ih =>
        obtain ⟨h0, h1⟩ := ih
        have hstep : smoothSeq b dt (k + 1) = smoothStep b dt 1 (smoothSeq b dt k) := rfl
        rcases lt_or_ge (smoothSeq b dt k) 1 with hlt | hge
        · obtain ⟨heq, hlo, hup⟩ := smoothStep_attack b dt _ hb hdt hstab h0 hlt
          rw [hstep, heq]
          exact ⟨hlo, hup⟩
        · have hveq : smoothSeq b dt k = 1 := le_antisymm h1 hge
          rw [hstep, hveq, smoothStep_at_one]
          norm_num
  have formula : ∀ k, 1 - smoothSeq b dt (k + 1) =
      (1 - smoothSeq b dt k) * (1 - (20 + b * 10) * dt) := by
    intro k
    obtain ⟨h0, h1⟩ := bounds k
    have hstep : smoothSeq b dt (k + 1) = smoothStep b dt 1 (smoothSeq b dt k) := rfl
    rcases lt_or_ge (smoothSeq b dt k) 1 with hlt | hge
    · obtain ⟨heq, -, -⟩ := smoothStep_attack b dt _ hb hdt hstab h0 hlt
      rw [hstep, heq]
      ring
    · have hveq : smoothSeq b dt k = 1 := le_antisymm h1 hge
      rw [hstep, hveq, smoothStep_at_one]
      ring
  refine ⟨?_, bounds, formula, ?_⟩
  · intro k
    obtain ⟨h0, h1⟩ := bounds k
    have f := formula k
    have hprod : (0 : ℝ) ≤ (1 - smoothSeq b dt k) * ((20 + b * 10) * dt) :=
      mul_nonneg (by linarith) hRpos.le
    nlinarith [f, hprod]
  · intro k hk
    have f := formula k
    have hprod : (0 : ℝ) < (1 - smoothSeq b dt k) * ((20 + b * 10) * dt) :=
      mul_pos (by linarith) hRpos
    nlinarith [f, hprod]

theorem C6_witness :
    (4.5 + (0 : ℝ) * 2) * 1 < (20 + 0 * 10) * 1 ∧
    smoothSeq 0 (1 / 100) 0 ≤ smoothSeq 0 (1 / 100) 1 := by
  have h1 := C6_amended 0 1 le_rfl (by norm_num)
  have h100 := C6_amended 0 (1 / 100) le_rfl (by norm_num)
  exact ⟨h1.1, (h100.2.2 (by norm_num)).1 0⟩

/-- Bass boost of `update_visualizer`: for the lowest 8 bands,
`1 + (1 - i/8) * 3.5`, else 1. -/
noncomputable def bassBoost (i : ℕ) : ℝ :=
  if i < 8 then 1 + (1 - (i : ℝ) / 8) * 3.5 else 1

/-- The per-band target pipeline of `update_visualizer` (plug.c lines
689-707): boost, square-root compression, overall-level scaling, ceiling
clamp at 1.5; the second component is the updated `overall_level`. -/
noncomputable def targetAndOverall (i : ℕ) (normalized overall : ℝ) : ℝ × ℝ :=
  (if Real.sqrt (normalized * bassBoost i) *
        (1 + (0.95 * overall + 0.05 * normalized) * 0.5) > 1.5
    then 1.5
    else Real.sqrt (normalized * bassBoost i) *
        (1 + (0.95 * overall + 0.05 * normalized) * 0.5),
   0.95 * overall + 0.05 * normalized)

/-- One whole per-band frame update of `update_visualizer` for band `i`:
computes the clamped target, updates `bass_history` on band 0, then runs
the asymmetric smoother with the final [0, 1.5] clamps; returns
(new bar value, new overall_level, new bass_history). -/
noncomputable def updateBand (i : ℕ) (normalized overall bass dt v : ℝ) : ℝ × ℝ × ℝ :=
  (smoothStep
      (if i = 0 then 0.9 * bass + 0.1 * (targetAndOverall i normalized overall).1 else bass)
      dt (targetAndOverall i normalized overall).1 v,
   (targetAndOverall i normalized overall).2,
   if i = 0 then 0.9 * bass + 0.1 * (targetAndOverall i normalized overall).1 else bass)

theorem smoothStep_mem (b dt target v : ℝ) :
    0 ≤ smoothStep b dt target v ∧ smoothStep b dt target v ≤ 1.5 := by
  unfold smoothStep clampHigh clampLow
  rcases lt_or_ge (rawStep b dt target v) 0 with h1 | h1
  · rw [if_pos h1]
    norm_num
  · rw [if_neg (not_lt.mpr h1)]
    rcases lt_or_ge (1.5 : ℝ) (rawStep b dt target v) with h2 | h2
    · rw [if_pos h2]
      norm_num
    · rw [if_neg (not_lt.mpr h2)]
      exact ⟨h1, h2⟩

theorem targetAndOverall_le (i : ℕ) (normalized overall : ℝ) :
    (targetAndOverall i normalized overall).1 ≤ 1.5 := by
  unfold targetAndOverall
  dsimp only
  rcases lt_or_ge (1.5 : ℝ) (Real.sqrt (normalized * bassBoost i) *
      (1 + (0.95 * overall + 0.05 * normalized) * 0.5)) with h | h
  · rw [if_pos h]
  · rw [if_neg (not_lt.mpr h)]
    exact h

/-- C8: the smoother target is clamped to at most 1.5 before use, every
frame update leaves the bar value in [0, 1.5], and the invariant holds in
the initial state and after the track-change reset. -/
theorem C8_clamp_invariant (i : ℕ) (normalized overall bass dt v : ℝ) :
    (targetAndOverall i normalized overall).1 ≤ 1.5 ∧
    0 ≤ (updateBand i normalized overall bass dt v).1 ∧
    (updateBand i normalized overall bass dt v).1 ≤ 1.5 ∧
    (∀ j, plugInit.bars j = 0 ∧ 0 ≤ plugInit.bars j ∧ plugInit.bars j ≤ 1.5) ∧
    (∀ (st : PlugState) (idx : ℤ) (rate : ℕ), st.tracksCount ≠ 0 →
      ∀ j, (switchTrack st idx rate).bars j = 0 ∧
        0 ≤ (switchTrack st idx rate).bars j ∧
        (switchTrack st idx rate).bars j ≤ 1.5) := by
  refine ⟨targetAndOverall_le i normalized overall,
    (smoothStep_mem _ _ _ _).1, (smoothStep_mem _ _ _ _).2, ?_, ?_⟩
  · intro j
    refine ⟨rfl, le_refl 0, by rw [show plugInit.bars j = 0 from rfl]; norm_num⟩
  · intro st idx rate h j
    have hz : (switchTrack st idx rate).bars j = 0 := by
      unfold switchTrack
      rw [if_neg h]
    exact ⟨hz, le_of_eq hz.symm, by rw [hz]; norm_num⟩

theorem C8_witness :
    0 ≤ (updateBand 0 (1 / 2) (1 / 2) 0 (1 / 60) 0).1 ∧
    (updateBand 0 (1 / 2) (1 / 2) 0 (1 / 60) 0).1 ≤ 1.5 :=
  ⟨(C8_clamp_invariant 0 (1 / 2) (1 / 2) 0 (1 / 60) 0).2.1,
   (C8_clamp_invariant 0 (1 / 2) (1 / 2) 0 (1 / 60) 0).2.2.1⟩

theorem getD_of_lt {α : Type} (l : List α) (d : α) (i : ℕ) (h : i < l.length) :
    l.getD i d = l[i] := by
  rw [List.getD_eq_getElem?_getD, List.getElem?_eq_getElem h]
  rfl

/-- The strided view `in[0], in[s], in[2*s], …` of length `n` that a call
`compute_fft(in, s, out, n)` reads from the sample array. -/
noncomputable def inputList (inp : ℕ → ℝ) (s n : ℕ) : List ℝ :=
  (List.range n).map fun i => inp (i * s)

theorem inputList_length (inp : ℕ → ℝ) (s n : ℕ) : (inputList inp s n).length = n := by
  simp [inputList]

theorem inputList_getElem (inp : ℕ → ℝ) (s n i : ℕ)
    (h1 : i < (inputList inp s n).length) : (inputList inp s n)[i] = inp (i * s) := by
  simp [inputList]

theorem evens_inputList (inp : ℕ → ℝ) (s m : ℕ) :
    evens (inputList inp s (2 * m)) = inputList inp (2 * s) m := by
  apply List.ext_getElem
  · rw [evens_length, inputList_length, inputList_length]
    omega
  intro i h1 h2
  have him : i < m := by rwa [inputList_length] at h2
  rw [inputList_getElem inp (2 * s) m i h2]
  rw [← getD_of_lt _ 0 i h1, evens_getD,
    getD_of_lt _ 0 (2 * i) (by rw [inputList_length]; omega),
    inputList_getElem]
  have harg : 2 * i * s = i * (2 * s) := by ring
  rw [harg]

theorem odds_inputList (inp : ℕ → ℝ) (s m : ℕ) :
    odds (inputList inp s (2 * m)) = inputList (fun j => inp (j + s)) (2 * s) m := by
  apply List.ext_getElem
  · rw [odds_length, inputList_length, inputList_length]
    omega
  intro i h1 h2
  have him : i < m := by rwa [inputList_length] at h2
  rw [inputList_getElem (fun j => inp (j + s)) (2 * s) m i h2]
  rw [← getD_of_lt _ 0 i h1, odds_getD,
    getD_of_lt _ 0 (2 * i + 1) (by rw [inputList_length]; omega),
    inputList_getElem]
  have harg : (2 * i + 1) * s = i * (2 * s) + s := by ring
  rw [harg]

theorem computeFft_getD_lo (x : List ℝ) (hx : 2 ≤ x.length) (j : ℕ)
    (hj : j < x.length / 2) :
    (computeFft x).getD j 0 =
      (computeFft (evens x)).getD j 0 + tw x.length j * (computeFft (odds x)).getD j 0 := by
  rw [computeFft, dif_neg (by omega)]
  rw [getD_of_lt _ 0 j (by simp; omega)]
  rw [List.getElem_append_left (by simp; omega)]
  rw [List.getElem_map, List.getElem_range]

theorem computeFft_getD_hi (x : List ℝ) (hx : 2 ≤ x.length) (j : ℕ)
    (hj1 : x.length / 2 ≤ j) (hj2 : j < 2 * (x.length / 2)) :
    (computeFft x).getD j 0 =
      (computeFft (evens x)).getD (j - x.length / 2) 0 -
        tw x.length (j - x.length / 2) * (computeFft (odds x)).getD (j - x.length / 2) 0 := by
  rw [computeFft, dif_neg (by omega)]
  rw [getD_of_lt _ 0 j (by simp; omega)]
  rw [List.getElem_append_right (by simp; omega)]
  rw [List.getElem_map, List.getElem_range]
  simp

theorem computeFftF_step (fuel : ℕ) (inp : ℕ → ℝ) (s : ℕ) (out : ℕ → ℂ) (size : ℕ)
    (hs : size ≠ 1) (e o : ℕ → ℂ)
    (he : computeFftF fuel inp (2 * s) out (size / 2) = some e)
    (ho : computeFftF fuel (fun j => inp (j + s)) (2 * s) (fun j => e (j + size / 2))
      (size / 2) = some o) :
    computeFftF (fuel + 1) inp s out size = some (fun j =>
      if j < size / 2 then
        mergeHalves e o (size / 2) j + tw size j * mergeHalves e o (size / 2) (j + size / 2)
      else if j < 2 * (size / 2) then
        mergeHalves e o (size / 2) (j - size / 2) -
          tw size (j - size / 2) * mergeHalves e o (size / 2) j
      else mergeHalves e o (size / 2) j) := by
  rw [computeFftF, if_neg hs]
  simp only [he, ho]

/-- Bridge between the two embeddings of `compute_fft`: on a power-of-two
size the array/fuel program `computeFftF` terminates and writes into cells
`[0, n)` exactly the list-model transform `computeFft` of the strided
input view, leaving every other cell of the output array untouched. -/
theorem computeFftF_bridge :
    ∀ (t : ℕ) (inp : ℕ → ℝ) (s : ℕ) (out : ℕ → ℂ),
      ∃ r, computeFftF (t + 1) inp s out (2 ^ t) = some r ∧
        (∀ j, j < 2 ^ t → r j = (computeFft (inputList inp s (2 ^ t))).getD j 0) ∧
        (∀ j, 2 ^ t ≤ j → r j = out j) := by
  intro t
  induction t with
  | zero =>
      intro inp s out
      refine ⟨Function.update out 0 ((inp 0 : ℝ) : ℂ), ?_, ?_, ?_⟩
      · rw [pow_zero, computeFftF, if_pos rfl]
      · intro j hj
        rw [pow_zero] at hj
        have hj0 : j = 0 := by omega
        subst hj0
        rw [Function.update_same]
        have h1 : inputList inp s 1 = [inp (0 * s)] := by
          unfold inputList
          rw [show List.range 1 = [0] from rfl]
          rfl
        rw [pow_zero, h1, computeFft, dif_pos (by simp)]
        simp
      · intro j hj
        rw [pow_zero] at hj
        rw [Function.update_noteq (by omega)]
  | succ t ih =>
      intro inp s out
      have hmpos : 0 < 2 ^ t := pow_pos (by norm_num) t
      have hsz : 2 ^ (t + 1) = 2 * 2 ^ t := by rw [pow_succ]; ring
      have hdiv : 2 ^ (t + 1) / 2 = 2 ^ t := by omega
      obtain ⟨e, he, he1, he2⟩ := ih inp (2 * s) out
      obtain ⟨o, ho, ho1, ho2⟩ := ih (fun j => inp (j + s)) (2 * s) (fun j => e (j + 2 ^ t))
      have hstep := computeFftF_step (t + 1) inp s out (2 ^ (t + 1)) (by omega) e o
        (by rw [hdiv]; exact he) (by rw [hdiv]; exact ho)
      rw [hdiv] at hstep
      refine ⟨_, hstep, ?_, ?_⟩
      · intro j hj
        have hxlen : (inputList inp s (2 ^ (t + 1))).length = 2 * 2 ^ t := by
          rw [inputList_length, hsz]
        have hev : evens (inputList inp s (2 ^ (t + 1))) = inputList inp (2 * s) (2 ^ t) := by
          rw [hsz]
          exact evens_inputList inp s (2 ^ t)
        have hod : odds (inputList inp s (2 ^ (t + 1))) =
            inputList (fun j => inp (j + s)) (2 * s) (2 ^ t) := by
          rw [hsz]
          exact odds_inputList inp s (2 ^ t)
        simp only [mergeHalves]
        rcases Nat.lt_or_ge j (2 ^ t) with hjm | hjm
        · rw [if_pos hjm]
          rw [if_pos hjm]
          rw [if_neg (by omega : ¬j + 2 ^ t < 2 ^ t), Nat.add_sub_cancel]
          rw [he1 j hjm, ho1 j hjm]
          rw [computeFft_getD_lo (inputList inp s (2 ^ (t + 1)))
            (by rw [inputList_length, hsz]; omega) j
            (by rw [inputList_length, hsz]; omega)]
          rw [hxlen, hev, hod]
          rw [show (2 * 2 ^ t : ℕ) = 2 ^ (t + 1) from hsz.symm]
        · rw [if_neg (by omega : ¬j < 2 ^ t)]
          rw [if_pos (by omega : j < 2 * 2 ^ t)]
          rw [if_pos (by omega : j - 2 ^ t < 2 ^ t)]
          rw [if_neg (by omega : ¬j < 2 ^ t)]
          rw [he1 (j - 2 ^ t) (by omega), ho1 (j - 2 ^ t) (by omega)]
          rw [computeFft_getD_hi (inputList inp s (2 ^ (t + 1)))
            (by rw [inputList_length, hsz]; omega) j
            (by rw [inputList_length, hsz]; omega)
            (by rw [inputList_length, hsz]; omega)]
          rw [hxlen, hev, hod]
          rw [show (2 * 2 ^ t : ℕ) / 2 = 2 ^ t from by omega]
          rw [show (2 * 2 ^ t : ℕ) = 2 ^ (t + 1) from hsz.symm]
      · intro j hj
        simp only [mergeHalves]
        rw [if_neg (by omega : ¬j < 2 ^ t)]
        rw [if_neg (by omega : ¬j < 2 * 2 ^ t)]
        rw [if_neg (by omega : ¬j < 2 ^ t)]
        rw [ho2 (j - 2 ^ t) (by omega)]
        rw [show j - 2 ^ t + 2 ^ t = j from by omega]
        exact he2 j (by omega)

/-- C1: for every power-of-two length, `compute_fft` (stride 1) is the
radix-2 decimation-in-time FFT: the base case returns the input verbatim,
otherwise the output is the butterfly combination of the recursively
transformed even- and odd-strided subsequences with twiddle
`e^(-2πi·k/N)`, and the whole output equals the reference DFT; the last
conjunct states the same for the array/fuel rendering of `compute_fft`
with an arbitrary stride: the cells it writes hold the DFT of the strided
input view. -/
theorem C1_compute_fft_correct (x : List ℝ) (h : ∃ t, x.length = 2 ^ t) :
    computeFft x = dft x ∧
    (x.length = 1 → computeFft x = x.map (fun r => (r : ℂ))) ∧
    (2 ≤ x.length → computeFft x =
      ((List.range (x.length / 2)).map fun k =>
        (computeFft (evens x)).getD k 0 + tw x.length k * (computeFft (odds x)).getD k 0) ++
      ((List.range (x.length / 2)).map fun k =>
        (computeFft (evens x)).getD k 0 - tw x.length k * (computeFft (odds x)).getD k 0)) ∧
    (∀ (t : ℕ) (inp : ℕ → ℝ) (s : ℕ) (out : ℕ → ℂ),
      ∃ r, computeFftF (t + 1) inp s out (2 ^ t) = some r ∧
        ∀ j, j < 2 ^ t → r j = (dft (inputList inp s (2 ^ t))).getD j 0) := by
  obtain ⟨t, ht⟩ := h
  refine ⟨computeFft_eq_dft t x ht, ?_, ?_, ?_⟩
  · intro h1
    rw [computeFft, dif_pos (by omega)]
  · intro h2
    rw [computeFft, dif_neg (by omega)]
  · intro u inp s out
    obtain ⟨r, hr, h1, -⟩ := computeFftF_bridge u inp s out
    refine ⟨r, hr, fun j hj => ?_⟩
    rw [h1 j hj, computeFft_eq_dft u _ (by rw [inputList_length])]

theorem C1_witness :
    computeFft [(1 : ℝ), 0] = dft [(1 : ℝ), 0] :=
  (C1_compute_fft_correct [(1 : ℝ), 0] ⟨1, rfl⟩).1
